import Mathlib

/-!
# Ship Proxy System — verification of the framing protocol and schedulers

Shallow embedding of `src/protocol.js`, `src/ship_proxy.js` and
`src/offshore_proxy.js`. Byte buffers are `List Nat` (each element one
byte), stateful objects are explicit state records, and the event-driven
control flow is modelled as step functions over those records.
-/

namespace ShipProxy

/-! ## Framing codec (`src/protocol.js`)

`MessageType.REQUEST = 0`, `MessageType.RESPONSE = 1`, `HEADER_LENGTH = 5`.
-/

def REQUEST : Nat := 0

def RESPONSE : Nat := 1

def HEADER_LENGTH : Nat := 5

/-- The errors `encodeMessage` / `FrameDecoder.push` can throw
(`TypeError` for a non-Buffer argument, `RangeError` for a bad type). -/
inductive ProtoError where
  | typeError
  | rangeError
deriving DecidableEq, Repr

/-- Big-endian 4-byte encoding of a 32-bit unsigned integer, as
`Buffer.writeUInt32BE` lays it out. -/
def u32be (n : Nat) : List Nat :=
  [n / 2 ^ 24 % 256, n / 2 ^ 16 % 256, n / 2 ^ 8 % 256, n % 256]

/-- `buffer.readUInt32BE(0)`: the first four bytes, big-endian. The
source only calls this when at least `HEADER_LENGTH` bytes are present. -/
def readU32BE : List Nat → Nat
  | b0 :: b1 :: b2 :: b3 :: _ => ((b0 * 256 + b1) * 256 + b2) * 256 + b3
  | _ => 0

/-- `buffer.readUInt8(4)`: the fifth byte, the frame type. -/
def typeByte (buf : List Nat) : Nat := buf.getD 4 0

/-- The frame bytes `encodeMessage` builds once its checks pass:
4-byte big-endian length, 1-byte type, then the payload
(`Buffer.concat([header, payload])`). -/
def encodeOk (messageType : Nat) (payload : List Nat) : List Nat :=
  u32be payload.length ++ messageType :: payload

/-- `encodeMessage(messageType, payload)` from `src/protocol.js`.
The payload is a Buffer by the model's type; the remaining check throws
`RangeError("invalid messageType")` unless the type is REQUEST or RESPONSE. -/
def encodeMessage (messageType : Nat) (payload : List Nat) :
    Except ProtoError (List Nat) :=
  if messageType ≠ REQUEST ∧ messageType ≠ RESPONSE then
    .error .rangeError
  else
    .ok (encodeOk messageType payload)

/-- A decoded framed message `{type, payload}`. -/
structure Msg where
  type : Nat
  payload : List Nat
deriving DecidableEq, Repr

/-- The mutable state of a `FrameDecoder`: its internal byte buffer and
its closed flag. -/
structure DecState where
  buffer : List Nat
  closed : Bool
deriving DecidableEq, Repr

/-- `new FrameDecoder()`: empty buffer, not closed. -/
def FrameDecoder.new : DecState := ⟨[], false⟩

/-- `FrameDecoder._parseAvailableFrames`: repeatedly extract complete
frames from the front of the buffer; returns the emitted messages in
order together with the remaining (incomplete) buffer. -/
def parseAvailableFrames (buf : List Nat) : List Msg × List Nat :=
  if _h : HEADER_LENGTH ≤ buf.length ∧
      HEADER_LENGTH + readU32BE buf ≤ buf.length then
    (⟨typeByte buf, (buf.drop HEADER_LENGTH).take (readU32BE buf)⟩ ::
        (parseAvailableFrames (buf.drop (HEADER_LENGTH + readU32BE buf))).1,
      (parseAvailableFrames (buf.drop (HEADER_LENGTH + readU32BE buf))).2)
  else
    ([], buf)
termination_by buf.length
decreasing_by
  all_goals
    simp only [List.length_drop, HEADER_LENGTH] at _h ⊢
    omega

/-- `FrameDecoder.close()`: drop the buffer, set the closed flag. -/
def FrameDecoder.close (_ : DecState) : DecState := ⟨[], true⟩

/-- The state/message part of `FrameDecoder.push`: if closed, return with
no effect; otherwise append the chunk and parse all available frames. -/
def pushCore (s : DecState) (chunk : List Nat) : DecState × List Msg :=
  if s.closed then (s, [])
  else
    let r := parseAvailableFrames (s.buffer ++ chunk)
    (⟨r.2, s.closed⟩, r.1)

/-- `FrameDecoder.push(chunk)` from `src/protocol.js`. The only throw in
`push` is the `TypeError` for a non-Buffer chunk, which the model's type
rules out, so the result is always `.ok`; a closed decoder returns
silently with no message. -/
def FrameDecoder.push (s : DecState) (chunk : List Nat) :
    Except ProtoError (DecState × List Msg) :=
  .ok (pushCore s chunk)

/-- Push a list of chunks in order into the decoder, collecting every
emitted message in order. -/
def pushMany (s : DecState) : List (List Nat) → DecState × List Msg
  | [] => (s, [])
  | c :: cs =>
    let r := pushCore s c
    let r' := pushMany r.1 cs
    (r'.1, r.2 ++ r'.2)

/-! ### Codec lemmas -/

theorem u32be_length (n : Nat) : (u32be n).length = 4 := by
  simp [u32be]

theorem readU32BE_u32be_append (n : Nat) (rest : List Nat) (h : n < 2 ^ 32) :
    readU32BE (u32be n ++ rest) = n := by
  simp only [u32be, List.cons_append, List.nil_append, readU32BE]
  omega

theorem typeByte_frame (n t : Nat) (rest : List Nat) :
    typeByte (u32be n ++ t :: rest) = t := by
  simp [u32be, typeByte]

theorem encodeOk_as_cons (t : Nat) (p : List Nat) :
    encodeOk t p =
      (p.length / 2 ^ 24 % 256) :: (p.length / 2 ^ 16 % 256) ::
        (p.length / 2 ^ 8 % 256) :: (p.length % 256) :: t :: p := by
  simp [encodeOk, u32be]

/-- Unfolding equation for `parseAvailableFrames` in the success case. -/
theorem parseAvailableFrames_pos (buf : List Nat)
    (h : HEADER_LENGTH ≤ buf.length ∧ HEADER_LENGTH + readU32BE buf ≤ buf.length) :
    parseAvailableFrames buf =
      (⟨typeByte buf, (buf.drop HEADER_LENGTH).take (readU32BE buf)⟩ ::
          (parseAvailableFrames (buf.drop (HEADER_LENGTH + readU32BE buf))).1,
        (parseAvailableFrames (buf.drop (HEADER_LENGTH + readU32BE buf))).2) := by
  rw [parseAvailableFrames]
  simp only [dif_pos h]

/-- Unfolding equation for `parseAvailableFrames` in the stuck case. -/
theorem parseAvailableFrames_neg (buf : List Nat)
    (h : ¬(HEADER_LENGTH ≤ buf.length ∧ HEADER_LENGTH + readU32BE buf ≤ buf.length)) :
    parseAvailableFrames buf = ([], buf) := by
  rw [parseAvailableFrames]
  simp only [dif_neg h]

theorem parseAvailableFrames_nil : parseAvailableFrames [] = ([], []) := by
  apply parseAvailableFrames_neg
  simp [HEADER_LENGTH]

/-- Extracting the leading frame: a well-formed frame followed by
arbitrary bytes parses to that frame's message followed by the parse of
the rest. -/
theorem parseAvailableFrames_frame_append (t : Nat) (p rest : List Nat)
    (hlen : p.length < 2 ^ 32) :
    parseAvailableFrames (encodeOk t p ++ rest) =
      (⟨t, p⟩ :: (parseAvailableFrames rest).1, (parseAvailableFrames rest).2) := by
  have hshape : encodeOk t p ++ rest = u32be p.length ++ t :: (p ++ rest) := by
    simp [encodeOk]
  have hread : readU32BE (encodeOk t p ++ rest) = p.length := by
    rw [hshape, readU32BE_u32be_append _ _ hlen]
  have hlength : (encodeOk t p ++ rest).length = 5 + p.length + rest.length := by
    simp [encodeOk, u32be]
    omega
  have hcond : HEADER_LENGTH ≤ (encodeOk t p ++ rest).length ∧
      HEADER_LENGTH + readU32BE (encodeOk t p ++ rest) ≤ (encodeOk t p ++ rest).length := by
    rw [hread, hlength]
    simp [HEADER_LENGTH]
    omega
  rw [parseAvailableFrames_pos _ hcond, hread]
  have hsplit5 : encodeOk t p ++ rest = (u32be p.length ++ [t]) ++ (p ++ rest) := by
    simp [encodeOk]
  have hdrop5 : (encodeOk t p ++ rest).drop HEADER_LENGTH = p ++ rest := by
    rw [hsplit5]
    apply List.drop_left'
    simp [u32be, HEADER_LENGTH]
  have htake : ((encodeOk t p ++ rest).drop HEADER_LENGTH).take p.length = p := by
    rw [hdrop5, List.take_left]
  have hdropAll : (encodeOk t p ++ rest).drop (HEADER_LENGTH + p.length) = rest := by
    apply List.drop_left'
    simp [encodeOk, u32be, HEADER_LENGTH]
    omega
  rw [htake, hdropAll, hshape, typeByte_frame]

/-- A single complete frame parses to exactly its message, leaving an
empty buffer. -/
theorem parseAvailableFrames_single (t : Nat) (p : List Nat)
    (hlen : p.length < 2 ^ 32) :
    parseAvailableFrames (encodeOk t p) = ([⟨t, p⟩], []) := by
  have := parseAvailableFrames_frame_append t p [] hlen
  simpa [parseAvailableFrames_nil] using this

theorem readU32BE_append (buf extra : List Nat) (h : 4 ≤ buf.length) :
    readU32BE (buf ++ extra) = readU32BE buf := by
  match buf with
  | b0 :: b1 :: b2 :: b3 :: rest => simp [readU32BE]
  | [] => simp at h
  | [_] => simp at h
  | [_, _] => simp at h
  | [_, _, _] => simp at h

theorem typeByte_append (buf extra : List Nat) (h : 5 ≤ buf.length) :
    typeByte (buf ++ extra) = typeByte buf := by
  simp only [typeByte]
  rw [List.getD_append]
  omega

/-- Appending extra bytes after a stuck buffer and continuing equals
parsing the whole concatenation: the emitted messages compose. -/
theorem parseAvailableFrames_append (buf extra : List Nat) :
    parseAvailableFrames (buf ++ extra) =
      ((parseAvailableFrames buf).1 ++
          (parseAvailableFrames ((parseAvailableFrames buf).2 ++ extra)).1,
        (parseAvailableFrames ((parseAvailableFrames buf).2 ++ extra)).2) := by
  have key : ∀ n (buf : List Nat), buf.length ≤ n → ∀ extra : List Nat,
      parseAvailableFrames (buf ++ extra) =
        ((parseAvailableFrames buf).1 ++
            (parseAvailableFrames ((parseAvailableFrames buf).2 ++ extra)).1,
          (parseAvailableFrames ((parseAvailableFrames buf).2 ++ extra)).2) := by
    intro n
    induction n with
    | zero =>
      intro buf hlen extra
      have hbuf : buf = [] := by
        cases buf with
        | nil => rfl
        | cons a l => simp at hlen
      subst hbuf
      rw [parseAvailableFrames_nil]
      simp [Prod.mk.eta]
    | succ n ih =>
      intro buf hlen extra
      by_cases h : HEADER_LENGTH ≤ buf.length ∧
          HEADER_LENGTH + readU32BE buf ≤ buf.length
      · have h4 : 4 ≤ buf.length := by
          have := h.1
          simp only [HEADER_LENGTH] at this
          omega
        have h5 : 5 ≤ buf.length := by
          have := h.1
          simpa [HEADER_LENGTH] using this
        have hread : readU32BE (buf ++ extra) = readU32BE buf :=
          readU32BE_append buf extra h4
        have htype : typeByte (buf ++ extra) = typeByte buf :=
          typeByte_append buf extra h5
        have hcond : HEADER_LENGTH ≤ (buf ++ extra).length ∧
            HEADER_LENGTH + readU32BE (buf ++ extra) ≤ (buf ++ extra).length := by
          rw [hread, List.length_append]
          constructor
          · omega
          · have := h.2
            omega
        have hdropAppend : ∀ m : Nat, m ≤ buf.length →
            (buf ++ extra).drop m = buf.drop m ++ extra := by
          intro m hm
          rw [List.drop_append_eq_append_drop]
          have : m - buf.length = 0 := by omega
          rw [this, List.drop_zero]
        have htakeAppend :
            ((buf ++ extra).drop HEADER_LENGTH).take (readU32BE buf) =
              (buf.drop HEADER_LENGTH).take (readU32BE buf) := by
          rw [hdropAppend HEADER_LENGTH h.1, List.take_append_eq_append_take]
          have hrd : readU32BE buf - (buf.drop HEADER_LENGTH).length = 0 := by
            rw [List.length_drop]
            have := h.2
            omega
          rw [hrd, List.take_zero, List.append_nil]
        have hdropFrame : (buf ++ extra).drop (HEADER_LENGTH + readU32BE buf) =
            buf.drop (HEADER_LENGTH + readU32BE buf) ++ extra :=
          hdropAppend _ h.2
        have hrest : (buf.drop (HEADER_LENGTH + readU32BE buf)).length ≤ n := by
          rw [List.length_drop]
          simp only [HEADER_LENGTH] at h ⊢
          omega
        rw [parseAvailableFrames_pos (buf ++ extra) hcond,
          parseAvailableFrames_pos buf h, hread, htype, htakeAppend, hdropFrame,
          ih _ hrest extra]
        simp
      · rw [parseAvailableFrames_neg buf h]
        simp [Prod.mk.eta]
  exact key buf.length buf (le_refl _) extra

/-! ### The `pushMany` characterisation: chunking does not matter -/

theorem pushCore_open (s : DecState) (chunk : List Nat) (h : s.closed = false) :
    pushCore s chunk =
      (⟨(parseAvailableFrames (s.buffer ++ chunk)).2, false⟩,
        (parseAvailableFrames (s.buffer ++ chunk)).1) := by
  simp [pushCore, h]

/-- A buffer holds no complete frame: the parse loop's guard fails. -/
def Incomplete (buf : List Nat) : Prop :=
  ¬(HEADER_LENGTH ≤ buf.length ∧ HEADER_LENGTH + readU32BE buf ≤ buf.length)

theorem incomplete_nil : Incomplete [] := by
  intro h
  simp [HEADER_LENGTH] at h

/-- The residual buffer left by the parse loop never holds a complete
frame. -/
theorem parseAvailableFrames_residual_incomplete (buf : List Nat) :
    Incomplete (parseAvailableFrames buf).2 := by
  have key : ∀ n (buf : List Nat), buf.length ≤ n →
      Incomplete (parseAvailableFrames buf).2 := by
    intro n
    induction n with
    | zero =>
      intro buf hlen
      have hbuf : buf = [] := by
        cases buf with
        | nil => rfl
        | cons a l => simp at hlen
      subst hbuf
      rw [parseAvailableFrames_nil]
      exact incomplete_nil
    | succ n ih =>
      intro buf hlen
      by_cases h : HEADER_LENGTH ≤ buf.length ∧
          HEADER_LENGTH + readU32BE buf ≤ buf.length
      · rw [parseAvailableFrames_pos buf h]
        apply ih
        rw [List.length_drop]
        simp only [HEADER_LENGTH] at h ⊢
        omega
      · rw [parseAvailableFrames_neg buf h]
        exact h
  exact key buf.length buf (le_refl _)

/-- Pushing chunks one at a time into an open decoder whose buffer holds
no complete frame produces exactly the messages of parsing the
concatenation, and the same final buffer. -/
theorem pushMany_flatten (chunks : List (List Nat)) : ∀ buffer : List Nat,
    Incomplete buffer →
    pushMany ⟨buffer, false⟩ chunks =
      (⟨(parseAvailableFrames (buffer ++ chunks.flatten)).2, false⟩,
        (parseAvailableFrames (buffer ++ chunks.flatten)).1) := by
  induction chunks with
  | nil =>
    intro buffer hstuck
    simp [pushMany, parseAvailableFrames_neg buffer hstuck]
  | cons c cs ih =>
    intro buffer _hstuck
    have hpush : pushCore ⟨buffer, false⟩ c =
        (⟨(parseAvailableFrames (buffer ++ c)).2, false⟩,
          (parseAvailableFrames (buffer ++ c)).1) :=
      pushCore_open ⟨buffer, false⟩ c rfl
    simp only [pushMany, hpush]
    rw [ih _ (parseAvailableFrames_residual_incomplete (buffer ++ c))]
    rw [List.flatten_cons, ← List.append_assoc,
      parseAvailableFrames_append (buffer ++ c) cs.flatten]

/-- Parsing the concatenation of well-formed frames recovers exactly the
framed messages, leaving an empty buffer. -/
theorem parse_concat_frames (msgs : List Msg)
    (h : ∀ m ∈ msgs, m.payload.length < 2 ^ 32) :
    parseAvailableFrames ((msgs.map fun m => encodeOk m.type m.payload).flatten) =
      (msgs, []) := by
  induction msgs with
  | nil => simpa using parseAvailableFrames_nil
  | cons m ms ih =>
    simp only [List.map_cons, List.flatten_cons]
    rw [parseAvailableFrames_frame_append m.type m.payload _
      (h m (List.mem_cons_self _ _))]
    rw [ih fun m' hm' => h m' (List.mem_cons_of_mem _ hm')]

/-! ## Claim theorems for the framing codec -/

/-- C2: for every type in {0,1} and every byte payload (empty allowed),
pushing `encode(type, payload)` into a fresh decoder as a single chunk
yields exactly the one message `{type, payload}`, with the payload bytes
unchanged. -/
theorem claim_C2_roundtrip (t : Nat) (p : List Nat)
    (ht : t = REQUEST ∨ t = RESPONSE) (hlen : p.length < 2 ^ 32) :
    encodeMessage t p = .ok (encodeOk t p) ∧
    FrameDecoder.push FrameDecoder.new (encodeOk t p) =
      .ok (FrameDecoder.new, [⟨t, p⟩]) := by
  constructor
  · rcases ht with h | h <;> simp [encodeMessage, h, REQUEST, RESPONSE]
  · simp [FrameDecoder.push, FrameDecoder.new, pushCore,
      parseAvailableFrames_single t p hlen]

/-- Witness for C2 at type RESPONSE and payload `[10, 20]`. -/
theorem claim_C2_roundtrip_witness :
    encodeMessage 1 [10, 20] = .ok [0, 0, 0, 2, 1, 10, 20] ∧
    FrameDecoder.push FrameDecoder.new [0, 0, 0, 2, 1, 10, 20] =
      .ok (FrameDecoder.new, [⟨1, [10, 20]⟩]) := by
  have h := claim_C2_roundtrip 1 [10, 20] (Or.inr rfl) (by decide)
  exact ⟨h.1, h.2⟩

/-- C3: for every message sequence `M` encoded and concatenated into one
byte string `B`, and every partition of `B` into sub-chunks pushed into a
fresh decoder in order, the decoder emits exactly `M` in order — the
emitted sequence is independent of the chunking. -/
theorem claim_C3_chunk_invariance (msgs : List Msg) (chunks : List (List Nat))
    (hvalid : ∀ m ∈ msgs, m.payload.length < 2 ^ 32)
    (hchunks : chunks.flatten =
      (msgs.map fun m => encodeOk m.type m.payload).flatten) :
    pushMany FrameDecoder.new chunks = (FrameDecoder.new, msgs) := by
  have h := pushMany_flatten chunks [] incomplete_nil
  simp only [List.nil_append] at h
  rw [hchunks, parse_concat_frames msgs hvalid] at h
  exact h

/-- Witness for C3: two messages (`encode(a) ++ encode(b)`) cut into four
uneven chunks, one of which splits a frame header. -/
theorem claim_C3_chunk_invariance_witness :
    pushMany FrameDecoder.new [[0, 0, 0], [2, 0, 1], [2, 0, 0, 0], [0, 1]] =
      (FrameDecoder.new, [⟨0, [1, 2]⟩, ⟨1, []⟩]) := by
  exact claim_C3_chunk_invariance [⟨0, [1, 2]⟩, ⟨1, []⟩]
    [[0, 0, 0], [2, 0, 1], [2, 0, 0, 0], [0, 1]]
    (by decide) (by decide)

/-- C8: encode returns one contiguous buffer of exactly
`5 + payload.size()` bytes, first four bytes the payload length
big-endian, fifth byte the type; and it fails with a range error when the
type is not 0 or 1. -/
theorem claim_C8_encode_shape (t : Nat) (p : List Nat)
    (hlen : p.length < 2 ^ 32) :
    ((t = 0 ∨ t = 1) →
      encodeMessage t p = .ok (encodeOk t p) ∧
      (encodeOk t p).length = 5 + p.length ∧
      (encodeOk t p).take 4 = u32be p.length ∧
      readU32BE (encodeOk t p) = p.length ∧
      (encodeOk t p).getD 4 0 = t) ∧
    (¬(t = 0 ∨ t = 1) → encodeMessage t p = .error .rangeError) := by
  constructor
  · intro ht
    refine ⟨?_, ?_, ?_, ?_, ?_⟩
    · rcases ht with h | h <;> simp [encodeMessage, h, REQUEST, RESPONSE]
    · simp [encodeOk, u32be]
      omega
    · rw [encodeOk]
      apply List.take_left'
      exact u32be_length _
    · rw [encodeOk, readU32BE_u32be_append _ _ hlen]
    · rw [encodeOk_as_cons]
      rfl
  · intro ht
    have h0 : t ≠ REQUEST := by
      intro h
      exact ht (Or.inl h)
    have h1 : t ≠ RESPONSE := by
      intro h
      exact ht (Or.inr h)
    simp [encodeMessage, h0, h1]

/-- Witness for C8: a valid frame at type 1, and the range error at
type 2. -/
theorem claim_C8_encode_shape_witness :
    encodeMessage 1 [9, 9] = .ok [0, 0, 0, 2, 1, 9, 9] ∧
    encodeMessage 2 [9, 9] = .error .rangeError := by
  have hok := (claim_C8_encode_shape 1 [9, 9] (by decide)).1 (Or.inr rfl)
  have herr := (claim_C8_encode_shape 2 [9, 9] (by decide)).2 (by decide)
  exact ⟨hok.1, herr⟩

/-- C9 (counterexample): feeding a closed decoder a complete frame is NOT
an error — `push` returns successfully, emitting nothing, so the claim
that post-close input is a `ProtocolError` is false on the code. -/
theorem claim_C9_counterexample :
    FrameDecoder.push (FrameDecoder.close ⟨[1, 2, 3], false⟩) [0, 0, 0, 0, 1] =
      .ok (⟨[], true⟩, []) ∧
    (FrameDecoder.push (FrameDecoder.close ⟨[1, 2, 3], false⟩)
      [0, 0, 0, 0, 1]).isOk = true := by
  exact ⟨rfl, rfl⟩

/-- C9 (amended): `close()` drops any buffered partial frame and sets the
closed flag; bytes pushed after close are silently ignored — no message
is ever emitted from them and no error is raised (the decoder state does
not change). -/
theorem claim_C9_close_semantics (s : DecState) (chunk : List Nat) :
    (FrameDecoder.close s).buffer = [] ∧
    (FrameDecoder.close s).closed = true ∧
    FrameDecoder.push (FrameDecoder.close s) chunk =
      .ok (FrameDecoder.close s, []) := by
  refine ⟨rfl, rfl, ?_⟩
  simp [FrameDecoder.push, pushCore, FrameDecoder.close]

/-- C10: the decoder never validates the frame type byte — any type byte
0–255 in a well-formed frame is emitted verbatim as a message without
error, while the encoder rejects every type other than 0 and 1. -/
theorem claim_C10_type_transparent (t : Nat) (p : List Nat)
    (ht : t < 256) (hlen : p.length < 2 ^ 32) :
    FrameDecoder.push FrameDecoder.new (u32be p.length ++ t :: p) =
      .ok (FrameDecoder.new, [⟨t, p⟩]) ∧
    (2 ≤ t → encodeMessage t p = .error .rangeError) := by
  constructor
  · have hshape : u32be p.length ++ t :: p = encodeOk t p := rfl
    rw [hshape]
    simp [FrameDecoder.push, FrameDecoder.new, pushCore,
      parseAvailableFrames_single t p hlen]
  · intro h2
    have h0 : t ≠ REQUEST := by
      simp [REQUEST]
      omega
    have h1 : t ≠ RESPONSE := by
      simp [RESPONSE]
      omega
    simp [encodeMessage, h0, h1]

/-- Witness for C10 at the unrecognized type byte 7. -/
theorem claim_C10_type_transparent_witness :
    FrameDecoder.push FrameDecoder.new [0, 0, 0, 1, 7, 5] =
      .ok (FrameDecoder.new, [⟨7, [5]⟩]) ∧
    encodeMessage 7 [5] = .error .rangeError := by
  have h := claim_C10_type_transparent 7 [5] (by decide) (by decide)
  exact ⟨h.1, h.2 (by decide)⟩

/-! ## A generic one-outstanding counting lemma

Both the sender (`MessageSendQueue`) and the ship scheduler
(`RequestQueue`) emit event traces in which a "start" may only follow the
matching "done"; composing per-step traces needs this prefix-count fact.
-/

theorem countP_prefix_append {α : Type} (p q : α → Bool) (l1 l2 : List α)
    (a b : Nat)
    (h1 : ∀ n, (l1.take n).countP p + a ≤ (l1.take n).countP q + 1)
    (heq : l1.countP p + a = l1.countP q + b)
    (h2 : ∀ n, (l2.take n).countP p + b ≤ (l2.take n).countP q + 1) :
    ∀ n, ((l1 ++ l2).take n).countP p + a ≤ ((l1 ++ l2).take n).countP q + 1 := by
  intro n
  rw [List.take_append_eq_append_take, List.countP_append, List.countP_append]
  by_cases h : n ≤ l1.length
  · have h0 : n - l1.length = 0 := by omega
    rw [h0, List.take_zero]
    have := h1 n
    simp only [List.countP_nil]
    omega
  · have hall : l1.take n = l1 := List.take_of_length_le (by omega)
    rw [hall]
    have := h2 (n - l1.length)
    omega

/-! ## `MessageSendQueue` (`src/protocol.js`)

The sender owns a FIFO `queue` of pending items and an `isSending` flag;
`enqueue` pushes and starts `_dequeueAndSend` when idle, which shifts one
item at a time, frame-encodes it with `sendMessage`, writes the framed
bytes to the socket and awaits the flush before touching the next item.
`inFlight` is the item whose write is currently awaited; `written` is the
byte stream handed to the socket so far.
-/

structure SendItem where
  type : Nat
  payload : List Nat
deriving DecidableEq, Repr

/-- The framed bytes `sendMessage` writes for one item. -/
def frameBytes (i : SendItem) : List Nat := encodeOk i.type i.payload

structure SendState where
  queue : List SendItem
  isSending : Bool
  inFlight : Option SendItem
  written : List Nat
deriving DecidableEq, Repr

def SendState.init : SendState := ⟨[], false, none, []⟩

/-- Observable sender events: a frame's bytes handed to the socket
(`started`), an item rejected because `encodeMessage` threw
(`rejected`), an item's promise resolved after its flush (`resolved`). -/
inductive SendEv where
  | started (i : SendItem)
  | rejected (i : SendItem)
  | resolved (i : SendItem)
deriving DecidableEq, Repr

/-- One pass of the `while` loop of `_dequeueAndSend`: shift items until
one is written (its flush is then awaited) or the queue is exhausted.
Returns the remaining queue, the written stream, the in-flight item and
the emitted events. -/
def drain (written : List Nat) :
    List SendItem → List SendItem × List Nat × Option SendItem × List SendEv
  | [] => ([], written, none, [])
  | i :: rest =>
    match encodeMessage i.type i.payload with
    | .ok bytes => (rest, written ++ bytes, some i, [.started i])
    | .error _ =>
      ((drain written rest).1, (drain written rest).2.1,
        (drain written rest).2.2.1, .rejected i :: (drain written rest).2.2.2)

/-- Resume the sender loop on the current state: `isSending` stays true
exactly while a write is in flight, and drops to false when the loop
exits with an empty queue. -/
def startNext (s : SendState) : SendState × List SendEv :=
  (⟨(drain s.written s.queue).1, (drain s.written s.queue).2.2.1.isSome,
      (drain s.written s.queue).2.2.1, (drain s.written s.queue).2.1⟩,
    (drain s.written s.queue).2.2.2)

/-- The sender's externally driven operations: `enqueue(type, payload)`
and the completion of the awaited socket write. -/
inductive SendOp where
  | enqueue (t : Nat) (p : List Nat)
  | writeDone
deriving DecidableEq, Repr

def sendStep (s : SendState) : SendOp → SendState × List SendEv
  | .enqueue t p =>
    if s.isSending then ({ s with queue := s.queue ++ [⟨t, p⟩] }, [])
    else startNext { s with queue := s.queue ++ [⟨t, p⟩], isSending := true }
  | .writeDone =>
    match s.inFlight with
    | some i =>
      ((startNext { s with inFlight := none }).1,
        .resolved i :: (startNext { s with inFlight := none }).2)
    | none => (s, [])

def sendRun (s : SendState) : List SendOp → SendState × List SendEv
  | [] => (s, [])
  | op :: ops =>
    ((sendRun (sendStep s op).1 ops).1,
      (sendStep s op).2 ++ (sendRun (sendStep s op).1 ops).2)

def enqueuedOf : List SendOp → List SendItem
  | [] => []
  | .enqueue t p :: ops => ⟨t, p⟩ :: enqueuedOf ops
  | .writeDone :: ops => enqueuedOf ops

def isStarted : SendEv → Bool
  | .started _ => true
  | _ => false

def isResolved : SendEv → Bool
  | .resolved _ => true
  | _ => false

def startedOf (evs : List SendEv) : List SendItem :=
  evs.filterMap fun e =>
    match e with
    | .started i => some i
    | _ => none

def resolvedOf (evs : List SendEv) : List SendItem :=
  evs.filterMap fun e =>
    match e with
    | .resolved i => some i
    | _ => none

/-- Sender state invariant between event-loop turns: a write is in
flight iff the loop is running, an idle sender has an empty queue, and
every queued item has a recognized type. -/
def SendInv (s : SendState) : Prop :=
  s.inFlight.isSome = s.isSending ∧
  (s.isSending = false → s.queue = []) ∧
  (∀ i ∈ s.queue, i.type = 0 ∨ i.type = 1)

def ValidOp : SendOp → Prop
  | .enqueue t _ => t = 0 ∨ t = 1
  | .writeDone => True

theorem encodeMessage_valid (t : Nat) (p : List Nat) (h : t = 0 ∨ t = 1) :
    encodeMessage t p = .ok (encodeOk t p) := by
  rcases h with h | h <;> simp [encodeMessage, h, REQUEST, RESPONSE]

theorem drain_cons_valid (w : List Nat) (i : SendItem) (rest : List SendItem)
    (h : i.type = 0 ∨ i.type = 1) :
    drain w (i :: rest) = (rest, w ++ frameBytes i, some i, [.started i]) := by
  simp [drain, encodeMessage_valid i.type i.payload h, frameBytes]

theorem startedOf_append (l1 l2 : List SendEv) :
    startedOf (l1 ++ l2) = startedOf l1 ++ startedOf l2 := by
  simp [startedOf, List.filterMap_append]

theorem resolvedOf_append (l1 l2 : List SendEv) :
    resolvedOf (l1 ++ l2) = resolvedOf l1 ++ resolvedOf l2 := by
  simp [resolvedOf, List.filterMap_append]

theorem enqueuedOf_cons (op : SendOp) (ops : List SendOp) :
    enqueuedOf (op :: ops) = enqueuedOf [op] ++ enqueuedOf ops := by
  cases op <;> simp [enqueuedOf]

/-- One externally driven operation preserves the sender invariant and
extends the written stream by whole frames in queue order, with at most
one write in flight at any instant. -/
theorem sendStep_spec (s : SendState) (op : SendOp) (hs : SendInv s)
    (hop : ValidOp op) :
    SendInv (sendStep s op).1 ∧
    (sendStep s op).1.written =
      s.written ++ ((startedOf (sendStep s op).2).map frameBytes).flatten ∧
    s.queue ++ enqueuedOf [op] =
      startedOf (sendStep s op).2 ++ (sendStep s op).1.queue ∧
    resolvedOf (sendStep s op).2 ++ (sendStep s op).1.inFlight.toList =
      s.inFlight.toList ++ startedOf (sendStep s op).2 ∧
    (∀ n, ((sendStep s op).2.take n).countP isStarted +
        s.inFlight.toList.length ≤
      ((sendStep s op).2.take n).countP isResolved + 1) ∧
    (sendStep s op).2.countP isStarted + s.inFlight.toList.length =
      (sendStep s op).2.countP isResolved +
        (sendStep s op).1.inFlight.toList.length := by
  obtain ⟨q, b, fl, w⟩ := s
  obtain ⟨hflag, hidle, hvalidq⟩ := hs
  simp only at hflag hidle hvalidq
  cases op with
  | enqueue t p =>
    cases b with
    | true =>
      simp only [sendStep, if_pos rfl]
      refine ⟨⟨hflag, by simp, ?_⟩, ?_, ?_, ?_, ?_, ?_⟩
      · intro i hi
        simp at hi
        rcases hi with hi | hi
        · exact hvalidq i hi
        · subst hi
          exact hop
      · simp [startedOf]
      · simp [startedOf, enqueuedOf]
      · simp [resolvedOf, startedOf]
      · intro n
        have hfl : fl.toList.length ≤ 1 := by
          cases fl <;> simp
        simp
        omega
      · simp
    | false =>
      have hq : q = [] := hidle rfl
      have hf : fl = none := by
        cases fl with
        | none => rfl
        | some i => simp at hflag
      subst hq
      subst hf
      simp only [sendStep, List.nil_append]
      rw [if_neg (by simp)]
      rw [show (startNext ⟨[⟨t, p⟩], true, none, w⟩ : SendState × List SendEv) =
          (⟨[], true, some ⟨t, p⟩, w ++ frameBytes ⟨t, p⟩⟩, [.started ⟨t, p⟩])
          from by
        simp [startNext, drain_cons_valid w ⟨t, p⟩ [] hop]]
      refine ⟨⟨by simp, by simp, by simp⟩, ?_, ?_, ?_, ?_, ?_⟩
      · simp [startedOf]
      · simp [startedOf, enqueuedOf]
      · simp [resolvedOf, startedOf]
      · intro n
        rcases n with _ | n <;>
          simp [List.countP_cons, isStarted, isResolved]
      · simp [List.countP_cons, isStarted, isResolved]
  | writeDone =>
    cases fl with
    | none =>
      simp only [sendStep]
      refine ⟨⟨hflag, hidle, hvalidq⟩, ?_, ?_, ?_, ?_, ?_⟩
      · simp [startedOf]
      · simp [startedOf, enqueuedOf]
      · simp [resolvedOf, startedOf]
      · intro n
        simp
      · simp
    | some i =>
      have hb : b = true := by
        simpa using hflag
      subst hb
      cases q with
      | nil =>
        simp only [sendStep]
        rw [show (startNext ⟨[], true, none, w⟩ : SendState × List SendEv) =
            (⟨[], false, none, w⟩, []) from by
          simp [startNext, drain]]
        refine ⟨⟨by simp, by simp, by simp⟩, ?_, ?_, ?_, ?_, ?_⟩
        · simp [startedOf]
        · simp [startedOf, enqueuedOf]
        · simp [resolvedOf, startedOf]
        · intro n
          rcases n with _ | n <;>
            simp [List.countP_cons, isStarted, isResolved]
        · simp [List.countP_cons, isStarted, isResolved]
      | cons j rest =>
        have hj : j.type = 0 ∨ j.type = 1 :=
          hvalidq j (List.mem_cons_self _ _)
        have hrest : ∀ k ∈ rest, k.type = 0 ∨ k.type = 1 := fun k hk =>
          hvalidq k (List.mem_cons_of_mem _ hk)
        simp only [sendStep]
        rw [show (startNext ⟨j :: rest, true, none, w⟩ :
            SendState × List SendEv) =
            (⟨rest, true, some j, w ++ frameBytes j⟩, [.started j]) from by
          simp [startNext, drain_cons_valid w j rest hj]]
        refine ⟨⟨by simp, by simp, by simpa using hrest⟩, ?_, ?_, ?_, ?_, ?_⟩
        · simp [startedOf]
        · simp [startedOf, enqueuedOf]
        · simp [resolvedOf, startedOf]
        · intro n
          rcases n with _ | _ | n <;>
            simp [List.countP_cons, isStarted, isResolved]
        · simp [List.countP_cons, isStarted, isResolved]

/-- A whole run of the sender from any invariant state: the byte stream
grows exactly by whole encoded frames in enqueue order, resolutions
follow starts in order, and at most one write is in flight at every
prefix of the event trace. -/
theorem sendRun_spec (ops : List SendOp) : ∀ s : SendState, SendInv s →
    (∀ op ∈ ops, ValidOp op) →
    SendInv (sendRun s ops).1 ∧
    (sendRun s ops).1.written =
      s.written ++ ((startedOf (sendRun s ops).2).map frameBytes).flatten ∧
    s.queue ++ enqueuedOf ops =
      startedOf (sendRun s ops).2 ++ (sendRun s ops).1.queue ∧
    resolvedOf (sendRun s ops).2 ++ (sendRun s ops).1.inFlight.toList =
      s.inFlight.toList ++ startedOf (sendRun s ops).2 ∧
    (∀ n, ((sendRun s ops).2.take n).countP isStarted +
        s.inFlight.toList.length ≤
      ((sendRun s ops).2.take n).countP isResolved + 1) ∧
    (sendRun s ops).2.countP isStarted + s.inFlight.toList.length =
      (sendRun s ops).2.countP isResolved +
        (sendRun s ops).1.inFlight.toList.length := by
  induction ops with
  | nil =>
    intro s hs _
    have hfl : s.inFlight.toList.length ≤ 1 := by
      cases s.inFlight <;> simp
    refine ⟨hs, by simp [sendRun, startedOf], by simp [sendRun, startedOf, enqueuedOf],
      by simp [sendRun, startedOf, resolvedOf], ?_, by simp [sendRun]⟩
    intro n
    simp [sendRun]
    omega
  | cons op ops ih =>
    intro s hs hops
    have hop : ValidOp op := hops op (List.mem_cons_self _ _)
    have hops' : ∀ o ∈ ops, ValidOp o := fun o ho =>
      hops o (List.mem_cons_of_mem _ ho)
    obtain ⟨h1inv, h1w, h1q, h1r, h1pre, h1end⟩ := sendStep_spec s op hs hop
    obtain ⟨h2inv, h2w, h2q, h2r, h2pre, h2end⟩ :=
      ih (sendStep s op).1 h1inv hops'
    simp only [sendRun]
    refine ⟨h2inv, ?_, ?_, ?_, ?_, ?_⟩
    · rw [startedOf_append, List.map_append, List.flatten_append, h2w, h1w,
        List.append_assoc]
    · calc s.queue ++ enqueuedOf (op :: ops)
          = (s.queue ++ enqueuedOf [op]) ++ enqueuedOf ops := by
            rw [enqueuedOf_cons, List.append_assoc]
        _ = (startedOf (sendStep s op).2 ++ (sendStep s op).1.queue) ++
              enqueuedOf ops := by rw [h1q]
        _ = startedOf (sendStep s op).2 ++
              ((sendStep s op).1.queue ++ enqueuedOf ops) := by
            rw [List.append_assoc]
        _ = startedOf (sendStep s op).2 ++
              (startedOf (sendRun (sendStep s op).1 ops).2 ++
                (sendRun (sendStep s op).1 ops).1.queue) := by rw [h2q]
        _ = startedOf ((sendStep s op).2 ++
              (sendRun (sendStep s op).1 ops).2) ++
              (sendRun (sendStep s op).1 ops).1.queue := by
            rw [startedOf_append, List.append_assoc]
    · calc resolvedOf ((sendStep s op).2 ++ (sendRun (sendStep s op).1 ops).2) ++
            (sendRun (sendStep s op).1 ops).1.inFlight.toList
          = resolvedOf (sendStep s op).2 ++
              (resolvedOf (sendRun (sendStep s op).1 ops).2 ++
                (sendRun (sendStep s op).1 ops).1.inFlight.toList) := by
            rw [resolvedOf_append, List.append_assoc]
        _ = resolvedOf (sendStep s op).2 ++
              ((sendStep s op).1.inFlight.toList ++
                startedOf (sendRun (sendStep s op).1 ops).2) := by rw [h2r]
        _ = (resolvedOf (sendStep s op).2 ++
              (sendStep s op).1.inFlight.toList) ++
              startedOf (sendRun (sendStep s op).1 ops).2 := by
            rw [List.append_assoc]
        _ = (s.inFlight.toList ++ startedOf (sendStep s op).2) ++
              startedOf (sendRun (sendStep s op).1 ops).2 := by rw [h1r]
        _ = s.inFlight.toList ++ startedOf ((sendStep s op).2 ++
              (sendRun (sendStep s op).1 ops).2) := by
            rw [startedOf_append, List.append_assoc]
    · exact countP_prefix_append isStarted isResolved _ _ _ _ h1pre h1end h2pre
    · rw [List.countP_append, List.countP_append]
      omega

/-- C4: for every sequence of payloads enqueued on one
`MessageSendQueue`, frames are written to the socket one at a time in
enqueue order — the byte stream is exactly the concatenation of whole
encoded frames in enqueue order (no interleaving, no splitting, no
reordering), and at most one send is in flight at any instant. -/
theorem claim_C4_sender_serialized (ops : List SendOp)
    (hvalid : ∀ op ∈ ops, ValidOp op) :
    (sendRun SendState.init ops).1.written =
      ((startedOf (sendRun SendState.init ops).2).map frameBytes).flatten ∧
    enqueuedOf ops = startedOf (sendRun SendState.init ops).2 ++
      (sendRun SendState.init ops).1.queue ∧
    (∀ n, ((sendRun SendState.init ops).2.take n).countP isStarted ≤
      ((sendRun SendState.init ops).2.take n).countP isResolved + 1) := by
  have hinit : SendInv SendState.init := ⟨rfl, fun _ => rfl, by simp [SendState.init]⟩
  obtain ⟨_, hw, hq, _, hpre, _⟩ := sendRun_spec ops SendState.init hinit hvalid
  refine ⟨?_, ?_, ?_⟩
  · simpa [SendState.init] using hw
  · simpa [SendState.init] using hq
  · intro n
    have := hpre n
    simpa [SendState.init] using this

/-- Witness for C4: two enqueues followed by both write completions; the
socket stream is the two whole frames back to back in enqueue order. -/
theorem claim_C4_sender_serialized_witness :
    ((sendRun SendState.init
        [.enqueue 0 [1], .enqueue 1 [2, 3], .writeDone, .writeDone]).1.written =
      ((startedOf (sendRun SendState.init
          [.enqueue 0 [1], .enqueue 1 [2, 3], .writeDone, .writeDone]).2).map
        frameBytes).flatten ∧
    enqueuedOf [.enqueue 0 [1], .enqueue 1 [2, 3], .writeDone, .writeDone] =
      startedOf (sendRun SendState.init
          [.enqueue 0 [1], .enqueue 1 [2, 3], .writeDone, .writeDone]).2 ++
        (sendRun SendState.init
          [.enqueue 0 [1], .enqueue 1 [2, 3], .writeDone, .writeDone]).1.queue ∧
    (∀ n, ((sendRun SendState.init
        [.enqueue 0 [1], .enqueue 1 [2, 3], .writeDone, .writeDone]).2.take
          n).countP isStarted ≤
      ((sendRun SendState.init
        [.enqueue 0 [1], .enqueue 1 [2, 3], .writeDone, .writeDone]).2.take
          n).countP isResolved + 1)) ∧
    (sendRun SendState.init
        [.enqueue 0 [1], .enqueue 1 [2, 3], .writeDone, .writeDone]).1.written =
      [0, 0, 0, 1, 0, 1, 0, 0, 0, 2, 1, 2, 3] := by
  constructor
  · apply claim_C4_sender_serialized
    intro op hop
    simp at hop
    rcases hop with rfl | rfl | rfl | rfl <;> simp [ValidOp]
  · decide

/-! ## Ship transaction scheduler (`src/ship_proxy.js`)

`RequestQueue` holds a FIFO `queue` and a `processing` flag.
`processNext` returns unless `!processing && queue.length > 0 &&
!offshore.inTunnel`; otherwise it shifts one item, sends its REQUEST
frame, and awaits the next RESPONSE frame (`waitForSingleResponse`)
before flushing the response to that item's client and, in the `finally`
block, clearing `processing` and scheduling `processNext` again.
Requests are abstracted to their raw-request identity, responses to the
RESPONSE frame payload.
-/

structure ShipState where
  queue : List Nat
  processing : Bool
  current : Option Nat
  inTunnel : Bool
deriving DecidableEq, Repr

def ShipState.init : ShipState := ⟨[], false, none, false⟩

/-- Externally driven scheduler events: a client request accepted and
enqueued; a RESPONSE frame arriving on the link; the CONNECT handler
setting `inTunnel`; a teardown path clearing `inTunnel`. -/
inductive ShipEv where
  | accept (r : Nat)
  | response (x : Nat)
  | tunnelSet
  | tunnelClear
deriving DecidableEq, Repr

/-- Link-side observations: a REQUEST frame sent, a RESPONSE frame
consumed by the waiting transaction. -/
inductive LinkEv where
  | sent (r : Nat)
  | got (x : Nat)
deriving DecidableEq, Repr

/-- `RequestQueue.processNext`: return unless idle, non-empty and not in
tunnel mode; otherwise shift the head item, mark processing, and send its
REQUEST frame (`current` is the transaction awaiting its response). -/
def processNext (s : ShipState) : ShipState × List LinkEv :=
  match s.queue with
  | [] => (s, [])
  | r :: rest =>
    if s.processing ∨ s.inTunnel then (s, [])
    else ({ s with processing := true, queue := rest, current := some r },
      [.sent r])

/-- One scheduler event. `accept` mirrors `enqueue` (push then
`processNext`); `response` resolves the in-flight transaction, delivers
the pair to its client, then — the `finally` block — clears `processing`
and runs `processNext`; a RESPONSE with no waiting transaction is
dropped; the tunnel events only flip the flag (no scheduling call in the
source on clear). -/
def shipStep (s : ShipState) :
    ShipEv → ShipState × List LinkEv × List (Nat × Nat)
  | .accept r =>
    ((processNext { s with queue := s.queue ++ [r] }).1,
      (processNext { s with queue := s.queue ++ [r] }).2, [])
  | .response x =>
    match s.current with
    | some r =>
      ((processNext { s with processing := false, current := none }).1,
        .got x ::
          (processNext { s with processing := false, current := none }).2,
        [(r, x)])
    | none => (s, [], [])
  | .tunnelSet => ({ s with inTunnel := true }, [], [])
  | .tunnelClear => ({ s with inTunnel := false }, [], [])

def shipRun (s : ShipState) :
    List ShipEv → ShipState × List LinkEv × List (Nat × Nat)
  | [] => (s, [], [])
  | e :: es =>
    ((shipRun (shipStep s e).1 es).1,
      (shipStep s e).2.1 ++ (shipRun (shipStep s e).1 es).2.1,
      (shipStep s e).2.2 ++ (shipRun (shipStep s e).1 es).2.2)

def acceptsOf (es : List ShipEv) : List Nat :=
  es.filterMap fun e =>
    match e with
    | .accept r => some r
    | _ => none

def sentOf (l : List LinkEv) : List Nat :=
  l.filterMap fun e =>
    match e with
    | .sent r => some r
    | _ => none

def gotOf (l : List LinkEv) : List Nat :=
  l.filterMap fun e =>
    match e with
    | .got x => some x
    | _ => none

def isSent : LinkEv → Bool
  | .sent _ => true
  | _ => false

def isGot : LinkEv → Bool
  | .got _ => true
  | _ => false

/-- Scheduler invariant between event-loop turns: the `processing` flag
is set exactly while a transaction awaits its response. -/
def ShipInv (s : ShipState) : Prop := s.processing = s.current.isSome

theorem acceptsOf_cons (e : ShipEv) (es : List ShipEv) :
    acceptsOf (e :: es) = acceptsOf [e] ++ acceptsOf es := by
  cases e <;> simp [acceptsOf]

theorem sentOf_append (l1 l2 : List LinkEv) :
    sentOf (l1 ++ l2) = sentOf l1 ++ sentOf l2 := by
  simp [sentOf, List.filterMap_append]

theorem gotOf_append (l1 l2 : List LinkEv) :
    gotOf (l1 ++ l2) = gotOf l1 ++ gotOf l2 := by
  simp [gotOf, List.filterMap_append]

theorem processNext_blocked (s : ShipState)
    (h : s.processing = true ∨ s.inTunnel = true) :
    processNext s = (s, []) := by
  cases hq : s.queue with
  | nil => simp [processNext, hq]
  | cons r rest => rcases h with h | h <;> simp [processNext, hq, h]

theorem processNext_ready (s : ShipState) (r : Nat) (rest : List Nat)
    (hq : s.queue = r :: rest) (hp : s.processing = false)
    (ht : s.inTunnel = false) :
    processNext s =
      ({ s with processing := true, queue := rest, current := some r },
        [.sent r]) := by
  simp [processNext, hq, hp, ht]

theorem processNext_empty (s : ShipState) (hq : s.queue = []) :
    processNext s = (s, []) := by
  simp [processNext, hq]

/-- One scheduler event preserves the invariant, sends frames only in
FIFO order, pairs each delivery with the in-flight request, and keeps at
most one transaction outstanding at every prefix of the link trace. -/
theorem shipStep_spec (s : ShipState) (e : ShipEv) (hs : ShipInv s) :
    ShipInv (shipStep s e).1 ∧
    s.queue ++ acceptsOf [e] =
      sentOf (shipStep s e).2.1 ++ (shipStep s e).1.queue ∧
    ((shipStep s e).2.2.map Prod.fst) ++ (shipStep s e).1.current.toList =
      s.current.toList ++ sentOf (shipStep s e).2.1 ∧
    ((shipStep s e).2.2.map Prod.snd) = gotOf (shipStep s e).2.1 ∧
    (∀ n, ((shipStep s e).2.1.take n).countP isSent +
        s.current.toList.length ≤
      ((shipStep s e).2.1.take n).countP isGot + 1) ∧
    (shipStep s e).2.1.countP isSent + s.current.toList.length =
      (shipStep s e).2.1.countP isGot +
        (shipStep s e).1.current.toList.length := by
  obtain ⟨q, b, cur, tun⟩ := s
  simp only [ShipInv] at hs
  cases e with
  | accept r =>
    by_cases hbt : b = true ∨ tun = true
    · have hblock : processNext ⟨q ++ [r], b, cur, tun⟩ =
          (⟨q ++ [r], b, cur, tun⟩, []) :=
        processNext_blocked _ hbt
      simp only [shipStep, hblock]
      have hcur : cur.toList.length ≤ 1 := by
        cases cur <;> simp
      refine ⟨hs, by simp [sentOf, acceptsOf], by simp [sentOf], by simp [gotOf],
        ?_, by simp⟩
      intro n
      simp
      omega
    · have hb : b = false := by
        rcases Bool.eq_false_or_eq_true b with h | h
        · exact absurd (Or.inl h) hbt
        · exact h
      have ht : tun = false := by
        rcases Bool.eq_false_or_eq_true tun with h | h
        · exact absurd (Or.inr h) hbt
        · exact h
      have hcur : cur = none := by
        cases cur with
        | none => rfl
        | some c =>
          rw [hb] at hs
          simp at hs
      subst hb
      subst ht
      subst hcur
      cases q with
      | nil =>
        have hready : processNext ⟨[] ++ [r], false, none, false⟩ =
            (⟨[], true, some r, false⟩, [.sent r]) := by
          have := processNext_ready ⟨[r], false, none, false⟩ r [] rfl rfl rfl
          simpa using this
        simp only [shipStep, hready]
        refine ⟨by simp [ShipInv], by simp [sentOf, acceptsOf],
          by simp [sentOf], by simp [gotOf], ?_, ?_⟩
        · intro n
          rcases n with _ | n <;> simp [List.countP_cons, isSent, isGot]
        · simp [List.countP_cons, isSent, isGot]
      | cons q0 qs =>
        have hready : processNext ⟨(q0 :: qs) ++ [r], false, none, false⟩ =
            (⟨qs ++ [r], true, some q0, false⟩, [.sent q0]) := by
          have := processNext_ready ⟨q0 :: (qs ++ [r]), false, none, false⟩
            q0 (qs ++ [r]) rfl rfl rfl
          simpa using this
        simp only [shipStep, hready]
        refine ⟨by simp [ShipInv], by simp [sentOf, acceptsOf],
          by simp [sentOf], by simp [gotOf], ?_, ?_⟩
        · intro n
          rcases n with _ | n <;> simp [List.countP_cons, isSent, isGot]
        · simp [List.countP_cons, isSent, isGot]
  | response x =>
    cases cur with
    | none =>
      simp only [shipStep]
      refine ⟨hs, by simp [sentOf, acceptsOf], by simp [sentOf],
        by simp [gotOf], ?_, by simp⟩
      intro n
      simp
    | some r =>
      have hb : b = true := by
        simpa using hs
      subst hb
      by_cases htq : q = [] ∨ tun = true
      · have hstay : processNext ⟨q, false, none, tun⟩ =
            (⟨q, false, none, tun⟩, []) := by
          rcases htq with h | h
          · exact processNext_empty _ h
          · exact processNext_blocked _ (Or.inr h)
        simp only [shipStep, hstay]
        refine ⟨by simp [ShipInv], by simp [sentOf, acceptsOf],
          by simp [sentOf], by simp [gotOf], ?_, ?_⟩
        · intro n
          rcases n with _ | n <;> simp [List.countP_cons, isSent, isGot]
        · simp [List.countP_cons, isSent, isGot]
      · have ht : tun = false := by
          rcases Bool.eq_false_or_eq_true tun with h | h
          · exact absurd (Or.inr h) htq
          · exact h
        obtain ⟨j, rest, hq⟩ : ∃ j rest, q = j :: rest := by
          cases q with
          | nil => exact absurd (Or.inl rfl) htq
          | cons j rest => exact ⟨j, rest, rfl⟩
        subst ht
        subst hq
        have hready : processNext ⟨j :: rest, false, none, false⟩ =
            (⟨rest, true, some j, false⟩, [.sent j]) := by
          have := processNext_ready ⟨j :: rest, false, none, false⟩
            j rest rfl rfl rfl
          simpa using this
        simp only [shipStep, hready]
        refine ⟨by simp [ShipInv], by simp [sentOf, acceptsOf],
          by simp [sentOf], by simp [gotOf], ?_, ?_⟩
        · intro n
          rcases n with _ | _ | n <;> simp [List.countP_cons, isSent, isGot]
        · simp [List.countP_cons, isSent, isGot]
  | tunnelSet =>
    simp only [shipStep]
    refine ⟨hs, by simp [sentOf, acceptsOf], by simp [sentOf],
      by simp [gotOf], ?_, by simp⟩
    intro n
    have hcur : cur.toList.length ≤ 1 := by
      cases cur <;> simp
    simp
    omega
  | tunnelClear =>
    simp only [shipStep]
    refine ⟨hs, by simp [sentOf, acceptsOf], by simp [sentOf],
      by simp [gotOf], ?_, by simp⟩
    intro n
    have hcur : cur.toList.length ≤ 1 := by
      cases cur <;> simp
    simp
    omega

/-- A whole scheduler run from any invariant state: REQUEST frames go
out in acceptance order, each delivered response is paired with the
request whose frame went out just before it, and at most one transaction
is outstanding at every prefix of the link trace. -/
theorem shipRun_spec (es : List ShipEv) : ∀ s : ShipState, ShipInv s →
    ShipInv (shipRun s es).1 ∧
    s.queue ++ acceptsOf es =
      sentOf (shipRun s es).2.1 ++ (shipRun s es).1.queue ∧
    ((shipRun s es).2.2.map Prod.fst) ++ (shipRun s es).1.current.toList =
      s.current.toList ++ sentOf (shipRun s es).2.1 ∧
    ((shipRun s es).2.2.map Prod.snd) = gotOf (shipRun s es).2.1 ∧
    (∀ n, ((shipRun s es).2.1.take n).countP isSent +
        s.current.toList.length ≤
      ((shipRun s es).2.1.take n).countP isGot + 1) ∧
    (shipRun s es).2.1.countP isSent + s.current.toList.length =
      (shipRun s es).2.1.countP isGot +
        (shipRun s es).1.current.toList.length := by
  induction es with
  | nil =>
    intro s hs
    have hcur : s.current.toList.length ≤ 1 := by
      cases s.current <;> simp
    refine ⟨hs, by simp [shipRun, sentOf, acceptsOf], by simp [shipRun, sentOf],
      by simp [shipRun, gotOf], ?_, by simp [shipRun]⟩
    intro n
    simp [shipRun]
    omega
  | cons e es ih =>
    intro s hs
    obtain ⟨h1inv, h1q, h1d, h1g, h1pre, h1end⟩ := shipStep_spec s e hs
    obtain ⟨h2inv, h2q, h2d, h2g, h2pre, h2end⟩ := ih (shipStep s e).1 h1inv
    simp only [shipRun]
    refine ⟨h2inv, ?_, ?_, ?_, ?_, ?_⟩
    · calc s.queue ++ acceptsOf (e :: es)
          = (s.queue ++ acceptsOf [e]) ++ acceptsOf es := by
            rw [acceptsOf_cons, List.append_assoc]
        _ = (sentOf (shipStep s e).2.1 ++ (shipStep s e).1.queue) ++
              acceptsOf es := by rw [h1q]
        _ = sentOf (shipStep s e).2.1 ++
              ((shipStep s e).1.queue ++ acceptsOf es) := by
            rw [List.append_assoc]
        _ = sentOf (shipStep s e).2.1 ++
              (sentOf (shipRun (shipStep s e).1 es).2.1 ++
                (shipRun (shipStep s e).1 es).1.queue) := by rw [h2q]
        _ = sentOf ((shipStep s e).2.1 ++ (shipRun (shipStep s e).1 es).2.1) ++
              (shipRun (shipStep s e).1 es).1.queue := by
            rw [sentOf_append, List.append_assoc]
    · calc (((shipStep s e).2.2 ++ (shipRun (shipStep s e).1 es).2.2).map
              Prod.fst) ++ (shipRun (shipStep s e).1 es).1.current.toList
          = ((shipStep s e).2.2.map Prod.fst) ++
              (((shipRun (shipStep s e).1 es).2.2.map Prod.fst) ++
                (shipRun (shipStep s e).1 es).1.current.toList) := by
            rw [List.map_append, List.append_assoc]
        _ = ((shipStep s e).2.2.map Prod.fst) ++
              ((shipStep s e).1.current.toList ++
                sentOf (shipRun (shipStep s e).1 es).2.1) := by rw [h2d]
        _ = (((shipStep s e).2.2.map Prod.fst) ++
              (shipStep s e).1.current.toList) ++
              sentOf (shipRun (shipStep s e).1 es).2.1 := by
            rw [List.append_assoc]
        _ = (s.current.toList ++ sentOf (shipStep s e).2.1) ++
              sentOf (shipRun (shipStep s e).1 es).2.1 := by rw [h1d]
        _ = s.current.toList ++
              sentOf ((shipStep s e).2.1 ++
                (shipRun (shipStep s e).1 es).2.1) := by
            rw [sentOf_append, List.append_assoc]
    · rw [List.map_append, gotOf_append, h1g, h2g]
    · exact countP_prefix_append isSent isGot _ _ _ _ h1pre h1end h2pre
    · rw [List.countP_append, List.countP_append]
      omega

/-- C1: for every sequence of ship-side events, at most one transaction
is outstanding on the link at any instant (every prefix of the link
trace has at most one REQUEST frame not yet answered), REQUEST frames go
out in the order the requests were accepted, and responses are delivered
to clients in that same order with positional correlation. -/
theorem claim_C1_fifo_one_at_a_time (es : List ShipEv) :
    (∀ n, ((shipRun ShipState.init es).2.1.take n).countP isSent ≤
      ((shipRun ShipState.init es).2.1.take n).countP isGot + 1) ∧
    sentOf (shipRun ShipState.init es).2.1 ++
        (shipRun ShipState.init es).1.queue = acceptsOf es ∧
    ((shipRun ShipState.init es).2.2.map Prod.fst) ++
        (shipRun ShipState.init es).1.current.toList =
      sentOf (shipRun ShipState.init es).2.1 ∧
    ((shipRun ShipState.init es).2.2.map Prod.snd) =
      gotOf (shipRun ShipState.init es).2.1 ∧
    (∃ rest, ((shipRun ShipState.init es).2.2.map Prod.fst) ++ rest =
      acceptsOf es) := by
  obtain ⟨_, hq, hd, hg, hpre, _⟩ := shipRun_spec es ShipState.init rfl
  have hq' : sentOf (shipRun ShipState.init es).2.1 ++
      (shipRun ShipState.init es).1.queue = acceptsOf es := by
    simpa [ShipState.init] using hq.symm
  have hd' : ((shipRun ShipState.init es).2.2.map Prod.fst) ++
      (shipRun ShipState.init es).1.current.toList =
      sentOf (shipRun ShipState.init es).2.1 := by
    simpa [ShipState.init] using hd
  refine ⟨?_, hq', hd', hg, ?_⟩
  · intro n
    have := hpre n
    simpa [ShipState.init] using this
  · refine ⟨(shipRun ShipState.init es).1.current.toList ++
      (shipRun ShipState.init es).1.queue, ?_⟩
    rw [← List.append_assoc, hd', hq']

/-- C6 counterexample: with one request queued during a tunnel, the
event that clears the in-tunnel flag processes nothing — the queued item
stays queued and no REQUEST frame is emitted, contradicting "the
scheduler immediately processes the next queued item". -/
theorem claim_C6_counterexample :
    shipStep ⟨[7], false, none, true⟩ .tunnelClear =
      (⟨[7], false, none, false⟩, [], []) := by
  rfl

/-- C6 (amended): while the in-tunnel flag is set the scheduler starts
no message-mode transaction — an accepted request only enqueues, and the
completion of an in-flight transaction delivers its response but starts
nothing (the `finally` block's `processNext` hits the `inTunnel` guard);
clearing the flag does not by itself schedule anything; the next queued
item is processed only at the next `enqueue` or at the completion of the
in-flight transaction, once the flag is clear. -/
theorem claim_C6_tunnel_blocks_scheduler (s : ShipState) (r x j : Nat)
    (rest : List Nat) :
    (s.inTunnel = true →
      shipStep s (.accept r) =
        ({ s with queue := s.queue ++ [r] }, [], [])) ∧
    (s.inTunnel = true → s.current = some r →
      shipStep s (.response x) =
        ({ s with processing := false, current := none },
          [.got x], [(r, x)])) ∧
    (shipStep s .tunnelClear = ({ s with inTunnel := false }, [], [])) ∧
    (s.queue = j :: rest → s.processing = false → s.inTunnel = false →
      shipStep s (.accept r) =
        ({ s with queue := rest ++ [r], processing := true, current := some j },
          [.sent j], [])) ∧
    (s.queue = j :: rest → s.current = some x → s.inTunnel = false →
      shipStep s (.response x) =
        ({ s with queue := rest, processing := true, current := some j },
          [.got x, .sent j], [(x, x)])) := by
  refine ⟨?_, ?_, rfl, ?_, ?_⟩
  · intro ht
    have hblock : processNext { s with queue := s.queue ++ [r] } =
        ({ s with queue := s.queue ++ [r] }, []) :=
      processNext_blocked _ (Or.inr ht)
    simp [shipStep, hblock]
  · intro ht hcur
    have hblock : processNext { s with processing := false, current := none } =
        ({ s with processing := false, current := none }, []) :=
      processNext_blocked _ (Or.inr ht)
    simp [shipStep, hcur, hblock]
  · intro hq hp ht
    have hready : processNext { s with queue := s.queue ++ [r] } =
        ({ s with queue := rest ++ [r], processing := true, current := some j },
          [.sent j]) := by
      have := processNext_ready { s with queue := s.queue ++ [r] } j
        (rest ++ [r]) (by simp [hq]) hp ht
      simpa using this
    simp [shipStep, hready]
  · intro hq hcur ht
    have hready : processNext { s with processing := false, current := none } =
        ({ s with queue := rest, processing := true, current := some j },
          [.sent j]) := by
      have := processNext_ready
        { s with processing := false, current := none } j rest (by simp [hq])
        rfl ht
      simpa using this
    simp [shipStep, hcur, hready]

/-- Witness for the amended C6: concrete states inside a tunnel — a
response completing mid-tunnel delivers without starting the queued item,
accepting enqueues without sending, clearing the flag sends nothing, and
the subsequent accept (flag now clear) does start the head item. -/
theorem claim_C6_tunnel_blocks_scheduler_witness :
    shipStep ⟨[7], true, some 5, true⟩ (.response 3) =
      (⟨[7], false, none, true⟩, [.got 3], [(5, 3)]) ∧
    shipStep ⟨[7], false, none, true⟩ (.accept 9) =
      (⟨[7, 9], false, none, true⟩, [], []) ∧
    shipStep ⟨[7, 9], false, none, true⟩ .tunnelClear =
      (⟨[7, 9], false, none, false⟩, [], []) ∧
    shipStep ⟨[7, 9], false, none, false⟩ (.accept 11) =
      (⟨[9, 11], true, some 7, false⟩, [.sent 7], []) := by
  have h0 := (claim_C6_tunnel_blocks_scheduler ⟨[7], true, some 5, true⟩
    5 3 0 []).2.1 rfl rfl
  have h1 := (claim_C6_tunnel_blocks_scheduler ⟨[7], false, none, true⟩
    9 0 0 []).1 rfl
  have h2 := (claim_C6_tunnel_blocks_scheduler ⟨[7, 9], false, none, true⟩
    0 0 0 []).2.2.1
  have h3 := (claim_C6_tunnel_blocks_scheduler ⟨[7, 9], false, none, false⟩
    11 0 7 [9]).2.2.2.1 rfl rfl rfl
  exact ⟨by simpa using h0, by simpa using h1, by simpa using h2,
    by simpa using h3⟩

/-! ## Offshore dispatcher (`src/offshore_proxy.js`)

Byte content of the HTTP texts the dispatcher builds. Strings become
bytes through their character codes (all texts involved are ASCII). -/

def strBytes (s : String) : List Nat := s.data.map Char.toNat

/-- `buildRawHttpResponse(statusCode, statusMessage, headers, body)`:
status line, CRLF-joined header lines, blank line, body. -/
def buildRawHttpResponse (statusCode : Nat) (statusMessage : String)
    (headers : List (String × String)) (body : List Nat) : List Nat :=
  strBytes ("HTTP/1.1 " ++ toString statusCode ++ " " ++ statusMessage ++
    "\r\n" ++
    String.intercalate "\r\n" (headers.map fun kv => kv.1 ++ ": " ++ kv.2) ++
    "\r\n\r\n") ++ body

/-- Upstream socket events observed by the CONNECT branch of the
dispatcher's message handler. -/
inductive UpstreamEv where
  | connected
  | errored
  | dataChunk (bytes : List Nat)
  | closedConn
deriving DecidableEq, Repr

/-- The RESPONSE frames the CONNECT branch enqueues for each upstream
socket event: `connect` emits the 200 banner; `error` enqueues
`Buffer.from("", "utf8")` — an empty payload; `data` forwards the chunk;
`close` sends nothing (it only clears `inTunnel`). -/
def connectUpstreamFrames : UpstreamEv → List (Nat × List Nat)
  | .connected =>
    [(RESPONSE, strBytes "HTTP/1.1 200 Connection Established\r\n\r\n")]
  | .errored => [(RESPONSE, strBytes "")]
  | .dataChunk b => [(RESPONSE, b)]
  | .closedConn => []

/-- The frame payload the non-CONNECT path enqueues when the origin
request errors (`upstreamReq.on("error")`): a synthesized
`502 Bad Gateway` with the error message as body. -/
def upstreamErrorResponse (errMessage : String) : List Nat :=
  buildRawHttpResponse 502 "Bad Gateway"
    [("Content-Type", "text/plain; charset=utf-8"),
      ("Content-Length", toString (strBytes errMessage).length),
      ("Connection", "close")]
    (strBytes errMessage)

theorem strBytes_append (a b : String) :
    strBytes (a ++ b) = strBytes a ++ strBytes b := by
  simp [strBytes]

/-- The non-CONNECT upstream-error frame really is an HTTP 502: its
first 24 bytes are the status line text `HTTP/1.1 502 Bad Gateway`. -/
theorem upstreamErrorResponse_status_line (err : String) :
    (upstreamErrorResponse err).take 24 =
      strBytes "HTTP/1.1 502 Bad Gateway" := by
  unfold upstreamErrorResponse buildRawHttpResponse
  rw [show ("HTTP/1.1 " ++ toString (502 : Nat) ++ " " ++ "Bad Gateway" :
      String) = "HTTP/1.1 502 Bad Gateway" from by decide]
  rw [strBytes_append, strBytes_append, strBytes_append]
  simp only [List.append_assoc]
  exact List.take_left' (by decide)

/-- C5 counterexample: on a failed CONNECT the dispatcher's upstream
error handler enqueues a RESPONSE frame whose payload is empty — not the
synthesized 502 the claim describes (any `buildRawHttpResponse 502 …`
payload begins with the 24-byte status line, so it is never empty). -/
theorem claim_C5_counterexample :
    connectUpstreamFrames .errored = [(RESPONSE, [])] ∧
    connectUpstreamFrames .errored ≠
      [(RESPONSE, buildRawHttpResponse 502 "Bad Gateway"
        [("Content-Type", "text/plain; charset=utf-8"), ("Connection", "close")]
        [])] := by
  constructor
  · rfl
  · decide

/-- C5 (amended): when the CONNECT target connection fails, the offshore
emits a RESPONSE frame with an empty payload (no 502 is synthesized on
the CONNECT path); the synthesized `502 Bad Gateway` — status line,
`text/plain` content type, error message body — is produced only by the
non-CONNECT origin-request error handler. -/
theorem claim_C5_connect_failure_empty (err : String) :
    connectUpstreamFrames .errored = [(RESPONSE, [])] ∧
    upstreamErrorResponse err ≠ [] ∧
    (upstreamErrorResponse err).take 24 =
      strBytes "HTTP/1.1 502 Bad Gateway" := by
  refine ⟨rfl, ?_, upstreamErrorResponse_status_line err⟩
  intro h
  have h24 := congrArg (List.take 24) h
  rw [upstreamErrorResponse_status_line err] at h24
  simp only [List.take_nil] at h24
  exact absurd h24 (by decide)

/-- Witness for the amended C5 at a concrete upstream error message. -/
theorem claim_C5_connect_failure_empty_witness :
    connectUpstreamFrames .errored = [(RESPONSE, [])] ∧
    upstreamErrorResponse "connect ECONNREFUSED" ≠ [] ∧
    (upstreamErrorResponse "connect ECONNREFUSED").take 24 =
      strBytes "HTTP/1.1 502 Bad Gateway" :=
  claim_C5_connect_failure_empty "connect ECONNREFUSED"

/-! ## `OffshoreConnection` reconnect (`src/ship_proxy.js`)

The constructor creates ONE `FrameDecoder`; `_connect()` creates a new
socket and a new `MessageSendQueue(sock)` but re-binds the same decoder
(`sock.on("data", chunk => this.decoder.push(chunk))`); the socket's
`close` handler schedules `_connect` again after a fixed 1000 ms
`setTimeout`. -/

structure OffshoreConnState where
  socketGen : Nat
  sendQueue : SendState
  decoder : DecState
deriving DecidableEq, Repr

/-- The fixed reconnect delay passed to `setTimeout`. -/
def reconnectDelayMs : Nat := 1000

/-- `OffshoreConnection._connect()`: a fresh socket (generation bump)
and a fresh `MessageSendQueue`, but the same decoder object. -/
def connectLink (s : OffshoreConnState) : OffshoreConnState :=
  { socketGen := s.socketGen + 1, sendQueue := SendState.init,
    decoder := s.decoder }

/-- The constructor: a fresh decoder, then `_connect()`. -/
def OffshoreConnection.init : OffshoreConnState :=
  connectLink ⟨0, SendState.init, FrameDecoder.new⟩

/-- The socket `close` handler: emit the delay handed to `setTimeout`
and the state `_connect()` rebuilds. -/
def onSocketClose (s : OffshoreConnState) : Nat × OffshoreConnState :=
  (reconnectDelayMs, connectLink s)

/-- C7 counterexample: a reconnect does NOT rebuild the decoder fresh —
a partial frame buffered before the connection loss survives, and its
bytes combine with post-reconnect bytes into a message on the new link. -/
theorem claim_C7_counterexample :
    (onSocketClose ⟨1, SendState.init, ⟨[0, 0, 0, 1], false⟩⟩).2.decoder =
      (⟨[0, 0, 0, 1], false⟩ : DecState) ∧
    (⟨[0, 0, 0, 1], false⟩ : DecState) ≠ FrameDecoder.new ∧
    pushCore
      (onSocketClose ⟨1, SendState.init, ⟨[0, 0, 0, 1], false⟩⟩).2.decoder
      [0, 99] = (FrameDecoder.new, [⟨0, [99]⟩]) := by
  refine ⟨rfl, by decide, ?_⟩
  have hframe : ([0, 0, 0, 1] : List Nat) ++ [0, 99] = encodeOk 0 [99] := rfl
  have h := pushCore_open ⟨[0, 0, 0, 1], false⟩ [0, 99] rfl
  rw [hframe, parseAvailableFrames_single 0 [99] (by decide)] at h
  exact h

/-- C7 (amended): whenever the link closes, the ship schedules a
reconnect after a fixed 1000 ms delay (≥ 1 second) — this happens on
every close, hence indefinitely — and each reconnect builds a fresh
sender for the new socket, but REUSES the existing decoder, so bytes
buffered by the old decoder survive into the new link's frame stream. -/
theorem claim_C7_reconnect_behavior (s : OffshoreConnState) :
    onSocketClose s = (1000, connectLink s) ∧
    1000 ≤ reconnectDelayMs ∧
    (onSocketClose s).2.socketGen = s.socketGen + 1 ∧
    (onSocketClose s).2.sendQueue = SendState.init ∧
    (onSocketClose s).2.decoder = s.decoder := by
  exact ⟨rfl, le_refl _, rfl, rfl, rfl⟩

end ShipProxy
